import Mathlib

/-!
Verification of the pair-tracking core of the Leaper extension.

The development shallowly embeds `src/pairs.ts` (the `Pairs` cluster class and
its helper functions `applyContentChanges`, `getNewPos`, `getNewPair`,
`removeEscapedPairs`) into Lean.  Document positions are (line, character)
pairs of naturals ordered lexicographically, text is a list of characters
(one entry per code unit), and the stateful `Pairs` class becomes explicit
state passing on a `PairsState` record.  External collaborators (the text
editor, the decoration renderer) are modelled at their interface only.
-/

namespace Leaper

/-- A document position, as in the editor API: zero-based line and character
(code-unit) coordinates. -/
structure Position where
  line : Nat
  character : Nat
deriving DecidableEq, Repr

namespace Position

/-- Lexicographic strict order on positions, matching `Position.isBefore`. -/
def ltPos (a b : Position) : Prop :=
  a.line < b.line ∨ (a.line = b.line ∧ a.character < b.character)

/-- Lexicographic order on positions, matching `Position.isBeforeOrEqual`. -/
def lePos (a b : Position) : Prop :=
  a.line < b.line ∨ (a.line = b.line ∧ a.character ≤ b.character)

instance : LT Position := ⟨ltPos⟩

instance : LE Position := ⟨lePos⟩

theorem lt_def (a b : Position) :
    a < b ↔ a.line < b.line ∨ (a.line = b.line ∧ a.character < b.character) :=
  Iff.rfl

theorem le_def (a b : Position) :
    a ≤ b ↔ a.line < b.line ∨ (a.line = b.line ∧ a.character ≤ b.character) :=
  Iff.rfl

theorem eq_iff (a b : Position) :
    a = b ↔ a.line = b.line ∧ a.character = b.character := by
  constructor
  · rintro rfl; exact ⟨rfl, rfl⟩
  · rintro ⟨h1, h2⟩; cases a; cases b; simp_all

instance decidableLtPos : DecidableRel (· < · : Position → Position → Prop) :=
  fun a b => decidable_of_iff _ (lt_def a b).symm

instance decidableLePos : DecidableRel (· ≤ · : Position → Position → Prop) :=
  fun a b => decidable_of_iff _ (le_def a b).symm

instance : LinearOrder Position where
  le_refl a := by simp [le_def]
  le_trans a b c := by simp only [le_def]; omega
  le_antisymm a b := by
    simp only [le_def, eq_iff]; omega
  le_total a b := by simp only [le_def]; omega
  lt_iff_le_not_le a b := by
    simp only [lt_def, le_def]; omega
  decidableLE := decidableLePos
  decidableLT := decidableLtPos
  decidableEq := inferInstance

/-- `Position.translate({ characterDelta: d })` for a nonnegative delta. -/
def translateChar (p : Position) (d : Nat) : Position :=
  ⟨p.line, p.character + d⟩

end Position

/-- A document range `[start, stop)`; `stop` models the API's `end` field. -/
structure Range where
  start : Position
  stop : Position
deriving DecidableEq, Repr

/-- `Range.isEmpty`: the range starts and ends at the same position. -/
def Range.isEmpty (r : Range) : Bool :=
  r.start = r.stop

/-- One `TextDocumentContentChangeEvent`: a replaced range and the inserted
text (one list entry per code unit). -/
structure ContentChange where
  range : Range
  text : List Char
deriving DecidableEq, Repr

/-- The settings consulted by the cluster: the trigger-pair list
(`languageRule`).  Decoration options are opaque externals and are omitted. -/
structure Settings where
  languageRule : List (List Char)
deriving DecidableEq, Repr

/-- A tracked pair: the positions of its opening and closing characters.
`openPos`/`closePos` model the `open`/`close` fields of `Pair`. -/
structure Pair where
  openPos : Position
  closePos : Position
deriving DecidableEq, Repr

/-- Modelled from the spec: the `Pair` class file is not among the sources,
so `enclosesPos` is taken from §4.1 of the specification, which states that
`enclosesPos(pos)` is true iff `open <= pos <= close`, both endpoints
inclusive. -/
def Pair.enclosesPos (p : Pair) (pos : Position) : Bool :=
  decide (p.openPos ≤ pos ∧ pos ≤ p.closePos)

/-! ### The Position-Delta Algorithm (`getNewPos` and its helper) -/

/-- `arg.split('\n')` on a code-unit list: the segments of `text` between
newline characters (always at least one segment, as in JavaScript). -/
def splitText : List Char → List (List Char)
  | [] => [[]]
  | c :: rest =>
    let r := splitText rest
    if c = '\n' then [] :: r
    else
      match r with
      | [] => [[c]]
      | l :: ls => (c :: l) :: ls

/-- The common tail of `getEndPos`: advance `startPos` by `deltaLines` lines,
and place the character at `argLastLineLength` plus (on the same line only)
the starting character. -/
def getEndPos (startPos : Position) (deltaLines argLastLineLength : Nat) : Position :=
  ⟨startPos.line + deltaLines,
   argLastLineLength + (if deltaLines > 0 then 0 else startPos.character)⟩

/-- `getEndPos(startPos, arg)` for a string argument. -/
def getEndPosOfText (startPos : Position) (text : List Char) : Position :=
  let splitted := splitText text
  getEndPos startPos (splitted.length - 1) (splitted.getLastD []).length

/-- `getEndPos(startPos, arg)` for a `Range` argument (`isSingleLine` is
`start.line == end.line`). -/
def getEndPosOfGap (startPos : Position) (arg : Range) : Position :=
  getEndPos startPos (arg.stop.line - arg.start.line)
    (arg.stop.character - (if arg.start.line = arg.stop.line then arg.start.character else 0))

/-- `getNewPos`: the image of `pos` under one content change, or `none` if
the change overwrote the position. -/
def getNewPos (pos : Position) (contentChange : ContentChange) : Option Position :=
  if contentChange.range.start ≤ pos ∧ pos < contentChange.range.stop then
    none
  else if pos < contentChange.range.start then
    some pos
  else
    let textEndPos := getEndPosOfText contentChange.range.start contentChange.text
    some (getEndPosOfGap textEndPos ⟨contentChange.range.stop, pos⟩)

/-! ### Pair update under content changes (`applyContentChanges`) -/

/-- The body of the inner loop of `applyContentChanges` for one pair, folded
over the whole change list: the pair's final endpoints and whether it
survived every change.  A pair is removed as soon as either endpoint is
deleted or the new endpoints land on different lines; the removed pair keeps
the endpoints it had accumulated so far (the source mutates in place and
checks before assigning). -/
def applyChangesToPair (p : Pair) : List ContentChange → Pair × Bool
  | [] => (p, true)
  | contentChange :: rest =>
    match getNewPos p.openPos contentChange, getNewPos p.closePos contentChange with
    | some newOpen, some newClose =>
      if newOpen.line ≠ newClose.line then (p, false)
      else applyChangesToPair ⟨newOpen, newClose⟩ rest
    | _, _ => (p, false)

/-- `applyContentChanges`: the updated pairs and the removed pairs, both in
their original relative order. -/
def applyContentChanges (pairs : List Pair) (contentChanges : List ContentChange) :
    List Pair × List Pair :=
  match pairs with
  | [] => ([], [])
  | p :: rest =>
    let (updated, removed) := applyContentChanges rest contentChanges
    let (q, ok) := applyChangesToPair p contentChanges
    if ok then (q :: updated, removed) else (updated, q :: removed)

/-- `getNewPair`: a new pair from the first content change of the batch, when
its range is empty and its text is a 2-code-unit configured trigger pair.
The source reads `contentChanges[0]` without checking the batch length; on an
empty batch it would fail, which we render as `none`. -/
def getNewPair (contentChanges : List ContentChange) (settings : Settings) : Option Pair :=
  match contentChanges with
  | [] => none
  | contentChange :: _ =>
    if contentChange.text.length = 2 ∧ contentChange.range.isEmpty = true ∧
        (settings.languageRule.any fun rule => contentChange.text = rule) = true then
      some ⟨contentChange.range.start, contentChange.range.start.translateChar 1⟩
    else none

/-- `removeEscapedPairs`: split the pairs into those the cursor still
encloses (retained) and those it has moved out of (removed). -/
def removeEscapedPairs (pairs : List Pair) (cursorPos : Position) :
    List Pair × List Pair :=
  match pairs with
  | [] => ([], [])
  | p :: rest =>
    let (retained, removed) := removeEscapedPairs rest cursorPos
    if p.enclosesPos cursorPos then (p :: retained, removed)
    else (retained, p :: removed)

/-- The mutable state of a `Pairs` instance: the tracked pairs and the rescue
buffer of pairs recently removed by the cursor-change updater. -/
structure PairsState where
  data : List Pair
  recentlyRemovedDueToCursorMove : List Pair
deriving DecidableEq, Repr

/-- `Pairs.updateGivenCursorChanges`: drop the pairs the cursor escaped,
remembering them in the rescue buffer. -/
def updateGivenCursorChanges (s : PairsState) (cursorPos : Position) : PairsState :=
  let (retained, removed) := removeEscapedPairs s.data cursorPos
  ⟨retained, removed⟩

/-- `Pairs.updateGivenContentChanges`: re-offer the rescue buffer (keeping
members that, after the changes, still enclose the cursor), update the
tracked pairs, then append any newly created pair.  Decoration calls have no
effect on this state. -/
def updateGivenContentChanges (s : PairsState) (contentChanges : List ContentChange)
    (cursorPos : Position) (settings : Settings) : PairsState :=
  let pending := (applyContentChanges s.recentlyRemovedDueToCursorMove contentChanges).1
  let recovered := pending.filter fun pair => pair.enclosesPos cursorPos
  let updated := (applyContentChanges s.data contentChanges).1
  let newData := updated ++ recovered
  match getNewPair contentChanges settings with
  | some newPair => ⟨newData ++ [newPair], []⟩
  | none => ⟨newData, []⟩

/-- `Pairs.clear`: empty both lists; the second component records the pairs
on which an `undecorate()` call was issued. -/
def clear (s : PairsState) : PairsState × List Pair :=
  (⟨[], []⟩, s.data)

/-! ### Line of sight (`Pairs.hasLineOfSight`) -/

/-- A character trimmed by `String.prototype.trim` (the whitespace characters
relevant here). -/
def isJsWhitespace (c : Char) : Bool :=
  c = ' ' || c = '\t' || c = '\n' || c = '\r' || c = '\x0b' || c = '\x0c'

/-- `String.prototype.trim`: remove leading and trailing whitespace. -/
def jsTrim (t : List Char) : List Char :=
  ((t.dropWhile isJsWhitespace).reverse.dropWhile isJsWhitespace).reverse

/-- The view of the active text editor consumed by `hasLineOfSight`: the
primary cursor position (`selection.active`) and `document.getText` on an
already-normalized range. -/
structure TextEditorModel where
  cursor : Position
  getText : Position → Position → List Char

/-- The `Range` constructor normalizes its endpoints so that start ≤ end. -/
def mkRangeNorm (a b : Position) : Position × Position :=
  if b < a then (b, a) else (a, b)

/-- `Pairs.hasLineOfSight`: false without an active editor or without pairs;
otherwise true iff the text from the cursor to the innermost pair's close
trims to the empty string. -/
def hasLineOfSight (activeTextEditor : Option TextEditorModel) (data : List Pair) : Bool :=
  match activeTextEditor with
  | none => false
  | some editor =>
    if data.length < 1 then false
    else
      let lastClose := (data.getLastD ⟨⟨0, 0⟩, ⟨0, 0⟩⟩).closePos
      let r := mkRangeNorm editor.cursor lastClose
      (jsTrim (editor.getText r.1 r.2)).length == 0

/-! ### Specification-side quantities -/

/-- The number of line breaks in a piece of inserted text. -/
def numLineBreaks (text : List Char) : Nat :=
  text.count '\n'

/-- The length of the text after the last line break, or the full length if
there is none. -/
def lenAfterLastLineBreak (text : List Char) : Nat :=
  (text.reverse.takeWhile fun c => c ≠ '\n').length

/-- The condition under which one content change makes `applyContentChanges`
drop a pair: an endpoint is deleted, or the new endpoints are on different
lines. -/
def dropsPair (p : Pair) (contentChange : ContentChange) : Bool :=
  match getNewPos p.openPos contentChange, getNewPos p.closePos contentChange with
  | some newOpen, some newClose => newOpen.line ≠ newClose.line
  | _, _ => true

/-- The pair with both endpoints shifted by one content change (meaningful
when neither endpoint was deleted). -/
def shiftPair (p : Pair) (contentChange : ContentChange) : Pair :=
  ⟨(getNewPos p.openPos contentChange).getD p.openPos,
   (getNewPos p.closePos contentChange).getD p.closePos⟩

/-- The result of folding the whole change list over one pair, as an option:
`some` of the updated pair when it survives, `none` when it is removed. -/
def surviveChanges (contentChanges : List ContentChange) (p : Pair) : Option Pair :=
  match applyChangesToPair p contentChanges with
  | (q, true) => some q
  | (_, false) => none

/-- The pair list produced by a content-change update before any new pair is
appended: the updated tracked pairs followed by the rescued ones. -/
def survivorsAfter (s : PairsState) (contentChanges : List ContentChange)
    (cursorPos : Position) : List Pair :=
  (applyContentChanges s.data contentChanges).1 ++
    ((applyContentChanges s.recentlyRemovedDueToCursorMove contentChanges).1.filter
      fun pair => pair.enclosesPos cursorPos)

/-- Strict proper nesting of one pair inside another. -/
def properlyNests (outer inner : Pair) : Prop :=
  outer.openPos < inner.openPos ∧ inner.closePos < outer.closePos

instance : DecidableRel properlyNests := fun _ _ =>
  inferInstanceAs (Decidable (_ ∧ _))

/-- Strict proper nesting of a whole pair list: every consecutive pair of
entries is properly nested. -/
def properlyNested (l : List Pair) : Prop :=
  l.Chain' properlyNests

instance (l : List Pair) : Decidable (properlyNested l) :=
  inferInstanceAs (Decidable (l.Chain' properlyNests))

/-- The states reachable from the empty cluster by arbitrary content-change
updates, cursor-change updates, and clears. -/
inductive Reachable (settings : Settings) : PairsState → Prop
  | init : Reachable settings ⟨[], []⟩
  | content (s : PairsState) (contentChanges : List ContentChange) (cursorPos : Position) :
      Reachable settings s →
      Reachable settings (updateGivenContentChanges s contentChanges cursorPos settings)
  | cursor (s : PairsState) (cursorPos : Position) :
      Reachable settings s →
      Reachable settings (updateGivenCursorChanges s cursorPos)
  | clearStep (s : PairsState) :
      Reachable settings s → Reachable settings (clear s).1

/-- Reachability where every content-change update that creates a new pair
does so at an insertion point that the positional update has left strictly
inside every surviving pair, so that the appended pair is innermost. -/
inductive ReachableGuarded (settings : Settings) : PairsState → Prop
  | init : ReachableGuarded settings ⟨[], []⟩
  | content (s : PairsState) (contentChanges : List ContentChange) (cursorPos : Position) :
      ReachableGuarded settings s →
      (∀ newPair, getNewPair contentChanges settings = some newPair →
        ∀ p ∈ survivorsAfter s contentChanges cursorPos, properlyNests p newPair) →
      ReachableGuarded settings (updateGivenContentChanges s contentChanges cursorPos settings)
  | cursor (s : PairsState) (cursorPos : Position) :
      ReachableGuarded settings s →
      ReachableGuarded settings (updateGivenCursorChanges s cursorPos)
  | clearStep (s : PairsState) :
      ReachableGuarded settings s → ReachableGuarded settings (clear s).1

/-! ### Helper lemmas: characterizations of the list-level operations -/

theorem removeEscapedPairs_eq (pairs : List Pair) (cursorPos : Position) :
    removeEscapedPairs pairs cursorPos =
      (pairs.filter (fun p => p.enclosesPos cursorPos),
       pairs.filter (fun p => !p.enclosesPos cursorPos)) := by
  induction pairs with
  | nil => rfl
  | cons p rest ih =>
    simp only [removeEscapedPairs, ih, List.filter_cons]
    cases h : p.enclosesPos cursorPos <;> simp [h]

theorem applyContentChanges_eq (pairs : List Pair) (contentChanges : List ContentChange) :
    applyContentChanges pairs contentChanges =
      (pairs.filterMap (surviveChanges contentChanges),
       pairs.filterMap fun p =>
         match applyChangesToPair p contentChanges with
         | (_, true) => none
         | (q, false) => some q) := by
  induction pairs with
  | nil => rfl
  | cons p rest ih =>
    simp only [applyContentChanges, ih, List.filterMap_cons, surviveChanges]
    rcases h : applyChangesToPair p contentChanges with ⟨q, ok⟩
    cases ok <;> simp [h]

theorem updateGivenContentChanges_data (s : PairsState)
    (contentChanges : List ContentChange) (cursorPos : Position) (settings : Settings) :
    (updateGivenContentChanges s contentChanges cursorPos settings).data =
      survivorsAfter s contentChanges cursorPos ++ (getNewPair contentChanges settings).toList := by
  unfold updateGivenContentChanges survivorsAfter
  cases h : getNewPair contentChanges settings <;> simp [h]

theorem updateGivenContentChanges_buffer (s : PairsState)
    (contentChanges : List ContentChange) (cursorPos : Position) (settings : Settings) :
    (updateGivenContentChanges s contentChanges cursorPos settings).recentlyRemovedDueToCursorMove =
      [] := by
  unfold updateGivenContentChanges
  cases h : getNewPair contentChanges settings <;> simp [h]

theorem jsTrim_eq_nil_iff (t : List Char) :
    jsTrim t = [] ↔ ∀ c ∈ t, isJsWhitespace c = true := by
  unfold jsTrim
  rw [List.reverse_eq_nil_iff, List.dropWhile_eq_nil_iff]
  constructor
  · intro h c hc
    rw [← List.takeWhile_append_dropWhile isJsWhitespace t] at hc
    rcases List.mem_append.1 hc with h1 | h2
    · exact List.mem_takeWhile_imp h1
    · exact h c (List.mem_reverse.2 h2)
  · intro h c hc
    exact h c ((List.dropWhile_sublist isJsWhitespace).subset (List.mem_reverse.1 hc))

theorem splitText_ne_nil (t : List Char) : splitText t ≠ [] := by
  cases t with
  | nil => simp [splitText]
  | cons c rest =>
    unfold splitText
    split_ifs with h
    · simp
    · cases h2 : splitText rest <;> simp

theorem length_splitText (t : List Char) :
    (splitText t).length = numLineBreaks t + 1 := by
  induction t with
  | nil => simp [splitText, numLineBreaks]
  | cons c rest ih =>
    unfold splitText
    split_ifs with h
    · subst h
      simp only [List.length_cons, ih, numLineBreaks, List.count_cons]
      simp
    · rcases h2 : splitText rest with - | ⟨l, ls⟩
      · exact absurd h2 (splitText_ne_nil rest)
      · rw [h2] at ih
        simp only [h2, List.length_cons] at ih ⊢
        simp only [numLineBreaks, List.count_cons] at ih ⊢
        have hcne : (c == '\n') = false := by simpa using h
        simp [hcne]
        omega

theorem splitText_of_no_break (t : List Char) (h : '\n' ∉ t) :
    splitText t = [t] := by
  induction t with
  | nil => rfl
  | cons c rest ih =>
    have hc : ¬(c = '\n') := fun hc => h (hc ▸ List.mem_cons_self c rest)
    have hrest : '\n' ∉ rest := fun hm => h (List.mem_cons_of_mem c hm)
    unfold splitText
    rw [if_neg hc, ih hrest]

theorem takeWhile_append_last_false {p : Char → Bool} (xs : List Char) (c : Char)
    (h : p c = false) : (xs ++ [c]).takeWhile p = xs.takeWhile p := by
  induction xs with
  | nil => simp [List.takeWhile_cons, h]
  | cons x xs ih =>
    simp only [List.cons_append, List.takeWhile_cons]
    cases hx : p x <;> simp [ih]

theorem takeWhile_append_last_true {p : Char → Bool} (xs : List Char) (c : Char)
    (hall : ∀ x ∈ xs, p x = true) (h : p c = true) :
    (xs ++ [c]).takeWhile p = xs ++ [c] := by
  induction xs with
  | nil => simp [List.takeWhile_cons, h]
  | cons x xs ih =>
    simp only [List.cons_append, List.takeWhile_cons, hall x (List.mem_cons_self x xs)]
    simp only [if_true]
    rw [ih fun y hy => hall y (List.mem_cons_of_mem x hy)]

theorem takeWhile_append_of_bad {p : Char → Bool} (xs ys : List Char)
    (hbad : ∃ x ∈ xs, p x = false) : (xs ++ ys).takeWhile p = xs.takeWhile p := by
  induction xs with
  | nil =>
    rcases hbad with ⟨x, hx, -⟩
    exact absurd hx (List.not_mem_nil x)
  | cons x xs ih =>
    simp only [List.cons_append, List.takeWhile_cons]
    cases hx : p x with
    | false => rfl
    | true =>
      rcases hbad with ⟨y, hy, hpy⟩
      rcases List.mem_cons.1 hy with rfl | hy2
      · rw [hx] at hpy; cases hpy
      · rw [ih ⟨y, hy2, hpy⟩]

theorem getLastD_splitText (t : List Char) :
    ((splitText t).getLastD []).length = lenAfterLastLineBreak t := by
  induction t with
  | nil => simp [splitText, lenAfterLastLineBreak]
  | cons c rest ih =>
    unfold splitText
    split_ifs with h
    · subst h
      rw [List.getLastD_cons]
      have : lenAfterLastLineBreak ('\n' :: rest) = lenAfterLastLineBreak rest := by
        unfold lenAfterLastLineBreak
        rw [List.reverse_cons, takeWhile_append_last_false]
        simp
      rw [this]
      rcases h2 : splitText rest with - | ⟨l, ls⟩
      · exact absurd h2 (splitText_ne_nil rest)
      · rw [h2] at ih
        simpa [h2] using ih
    · rcases h2 : splitText rest with - | ⟨l, ls⟩
      · exact absurd h2 (splitText_ne_nil rest)
      · rcases ls with - | ⟨l2, ls2⟩
        · -- a single segment: `rest` holds no line break and `l = rest`
          have hcount : numLineBreaks rest = 0 := by
            have := length_splitText rest
            rw [h2] at this
            simpa using this
          have hnotin : '\n' ∉ rest := by
            intro hm
            have := List.count_pos_iff.2 hm
            unfold numLineBreaks at hcount
            omega
          have hl : l = rest := by
            have := splitText_of_no_break rest hnotin
            rw [h2] at this
            simpa using this
          subst hl
          simp only [List.getLastD_cons, List.getLastD_nil, List.length_cons]
          unfold lenAfterLastLineBreak
          rw [List.reverse_cons, takeWhile_append_last_true]
          · simp
          · intro x hx
            have hxl : x ∈ l := List.mem_reverse.1 hx
            have : ¬(x = '\n') := fun hxeq => hnotin (hxeq ▸ hxl)
            simpa using this
          · simpa using h
        · -- several segments: `rest` holds a line break
          have hcount : 0 < numLineBreaks rest := by
            have := length_splitText rest
            rw [h2] at this
            simp at this
            omega
          have hin : '\n' ∈ rest := by
            by_contra hni
            unfold numLineBreaks at hcount
            rw [List.count_eq_zero_of_not_mem hni] at hcount
            omega
          have hrhs : lenAfterLastLineBreak (c :: rest) = lenAfterLastLineBreak rest := by
            unfold lenAfterLastLineBreak
            rw [List.reverse_cons, takeWhile_append_of_bad]
            exact ⟨'\n', List.mem_reverse.2 hin, by simp⟩
          rw [hrhs, ← ih, h2]
          simp [List.getLastD_cons]

/-- `getNewPos` on a position strictly before the overwritten range: the
position is unchanged. -/
theorem getNewPos_of_lt (pos : Position) (contentChange : ContentChange)
    (h : pos < contentChange.range.start) : getNewPos pos contentChange = some pos := by
  unfold getNewPos
  rw [if_neg fun hc => absurd hc.1 (not_le.2 h), if_pos h]

/-- `getNewPos` on a position at or past the end of the overwritten range:
the composition of the inserted text's end position with the gap. -/
theorem getNewPos_of_ge (pos : Position) (contentChange : ContentChange)
    (h1 : contentChange.range.start ≤ pos) (h2 : contentChange.range.stop ≤ pos) :
    getNewPos pos contentChange =
      some (getEndPosOfGap (getEndPosOfText contentChange.range.start contentChange.text)
        ⟨contentChange.range.stop, pos⟩) := by
  unfold getNewPos
  rw [if_neg fun hc => absurd hc.2 (not_lt.2 h2), if_neg (not_lt.2 h1)]

/-! ### Claim theorems -/

/-- C1: for a position at or past the end of a (well-formed) overwritten
range, `getNewPos` returns exactly the position described by the
specification: the new line is `start.line + insertedLines + (p.line -
end.line)`, and the new character is `p.character` when `p.line > end.line`,
else `insertedLastLineLen + (p.character - end.character)` when the inserted
text holds a line break, else `start.character + insertedLastLineLen +
(p.character - end.character)`. -/
theorem getNewPos_spec_formula (pos : Position) (contentChange : ContentChange)
    (hwf : contentChange.range.start ≤ contentChange.range.stop)
    (hge : contentChange.range.stop ≤ pos) :
    getNewPos pos contentChange =
      some ⟨contentChange.range.start.line + numLineBreaks contentChange.text +
          (pos.line - contentChange.range.stop.line),
        if contentChange.range.stop.line < pos.line then pos.character
        else if 0 < numLineBreaks contentChange.text then
          lenAfterLastLineBreak contentChange.text +
            (pos.character - contentChange.range.stop.character)
        else contentChange.range.start.character + lenAfterLastLineBreak contentChange.text +
          (pos.character - contentChange.range.stop.character)⟩ := by
  rw [getNewPos_of_ge pos contentChange (le_trans hwf hge) hge]
  have hdl : (splitText contentChange.text).length - 1 = numLineBreaks contentChange.text := by
    rw [length_splitText]; omega
  have hll := getLastD_splitText contentChange.text
  unfold getEndPosOfGap getEndPosOfText getEndPos
  simp only [Option.some.injEq, Position.eq_iff]
  rw [hdl, hll]
  rcases (Position.le_def _ _).1 hge with h | ⟨h1, h2⟩ <;>
    exact ⟨by omega, by split_ifs <;> omega⟩

/-- C1 witness: a concrete instance of the position-delta formula: the
position (2,7) mapped through the replacement of range [(0,1),(2,3)) by the
two-line text "ab\ncd" lands at (1,6). -/
theorem getNewPos_spec_formula_witness :
    getNewPos ⟨2, 7⟩ ⟨⟨⟨0, 1⟩, ⟨2, 3⟩⟩, ['a', 'b', '\n', 'c', 'd']⟩ = some ⟨1, 6⟩ := by
  rw [getNewPos_spec_formula ⟨2, 7⟩ ⟨⟨⟨0, 1⟩, ⟨2, 3⟩⟩, ['a', 'b', '\n', 'c', 'd']⟩
    (by decide) (by decide)]
  decide

/-- C6 counterexample: a position equal to a change's range start, with a
non-empty overwritten range, is reported deleted by `getNewPos`, contrary to
the claim that such a position is never reported deleted. -/
theorem getNewPos_deletes_at_range_start :
    getNewPos ⟨0, 0⟩ ⟨⟨⟨0, 0⟩, ⟨0, 1⟩⟩, []⟩ = none := by decide

/-- C6 (amended): `getNewPos` reports a position deleted exactly when the
position lies in the half-open overwritten range `[start, end)`: at or after
the range's start and strictly before its end.  A position equal to the
range's end, or otherwise not overwritten, is never reported deleted. -/
theorem getNewPos_eq_none_iff (pos : Position) (contentChange : ContentChange) :
    getNewPos pos contentChange = none ↔
      contentChange.range.start ≤ pos ∧ pos < contentChange.range.stop := by
  unfold getNewPos
  split_ifs with h1 h2 <;> simp_all

/-- C8: `Pairs.clear` (the implementation of `escapeAll`) is idempotent: the
first call leaves an empty cluster and an empty rescue buffer while issuing
an `undecorate` call on exactly the held pairs, and a second call leaves the
state unchanged and issues no decoration calls at all. -/
theorem clear_idempotent (s : PairsState) :
    (clear (clear s).1).1 = (clear s).1 ∧ (clear s).1.data = [] ∧
      (clear s).1.recentlyRemovedDueToCursorMove = [] ∧
      (clear (clear s).1).2 = [] ∧ (clear s).2 = s.data :=
  ⟨rfl, rfl, rfl, rfl, rfl⟩

/-- C9: a cursor-change update overwrites the rescue buffer with exactly the
pairs it removed (even when that set is empty) and keeps exactly the pairs
the cursor still encloses; consequently, after a second cursor-change update
the buffer holds only pairs that survived the first one, so a pair removed by
the first update can no longer be rescued. -/
theorem cursorUpdate_buffer_overwrite (s : PairsState) (c1 c2 : Position) :
    (updateGivenCursorChanges s c1).recentlyRemovedDueToCursorMove =
        s.data.filter (fun p => !p.enclosesPos c1) ∧
      (updateGivenCursorChanges s c1).data =
        s.data.filter (fun p => p.enclosesPos c1) ∧
      (updateGivenCursorChanges (updateGivenCursorChanges s c1)
          c2).recentlyRemovedDueToCursorMove =
        (s.data.filter fun p => p.enclosesPos c1).filter (fun p => !p.enclosesPos c2) ∧
      (updateGivenCursorChanges (updateGivenCursorChanges s c1) c2).data =
        (s.data.filter fun p => p.enclosesPos c1).filter (fun p => p.enclosesPos c2) := by
  simp [updateGivenCursorChanges, removeEscapedPairs_eq]

/-- C10: without an active text editor, `hasLineOfSight` is false no matter
how many pairs are tracked, so the exposed context can be false even while
the cluster is non-empty. -/
theorem hasLineOfSight_none_editor (data : List Pair) :
    hasLineOfSight none data = false :=
  rfl

/-- C7: with an active text editor, `hasLineOfSight` is true exactly when the
cluster is non-empty and the document text between the cursor position and
the close of the innermost (last, most nested) tracked pair consists of
whitespace only; in particular it is false when no pairs are tracked. -/
theorem hasLineOfSight_iff (editor : TextEditorModel) (data : List Pair) :
    hasLineOfSight (some editor) data = true ↔
      data ≠ [] ∧
        ∀ c ∈ editor.getText
            (mkRangeNorm editor.cursor (data.getLastD ⟨⟨0, 0⟩, ⟨0, 0⟩⟩).closePos).1
            (mkRangeNorm editor.cursor (data.getLastD ⟨⟨0, 0⟩, ⟨0, 0⟩⟩).closePos).2,
          isJsWhitespace c = true := by
  unfold hasLineOfSight
  cases data with
  | nil => simp
  | cons p rest =>
    simp only [List.length_cons, beq_iff_eq, List.length_eq_zero]
    rw [if_neg (by omega)]
    simp [jsTrim_eq_nil_iff]

theorem applyChangesToPair_single (p : Pair) (contentChange : ContentChange) :
    applyChangesToPair p [contentChange] =
      (if dropsPair p contentChange then p else shiftPair p contentChange,
       !dropsPair p contentChange) := by
  unfold applyChangesToPair dropsPair shiftPair
  rcases hO : getNewPos p.openPos contentChange with - | o <;>
    rcases hC : getNewPos p.closePos contentChange with - | c <;>
      simp only [Option.getD_some, Option.getD_none]
  · rfl
  · rfl
  · rfl
  · by_cases hl : o.line = c.line
    · simp [applyChangesToPair, hl]
    · simp [applyChangesToPair, hl]

/-- C2: a single content change makes `applyContentChanges` remove exactly
the pairs for which an endpoint is deleted or the shifted endpoints land on
different lines, keeping all other pairs (in order) with both endpoints
shifted; and for a pure insertion whose text holds a line break, the drop
condition holds precisely for the pairs whose interior (strictly after the
opening character, at or before the closing character) contains the
insertion point — such an insertion removes those pairs and no others. -/
theorem applyContentChanges_drop_characterization :
    (∀ (pairs : List Pair) (contentChange : ContentChange),
      applyContentChanges pairs [contentChange] =
        (pairs.filterMap fun p =>
            if dropsPair p contentChange then none else some (shiftPair p contentChange),
         pairs.filter fun p => dropsPair p contentChange)) ∧
    (∀ (p : Pair) (q : Position) (text : List Char),
      p.openPos.line = p.closePos.line → p.openPos < p.closePos →
      0 < numLineBreaks text →
      (dropsPair p ⟨⟨q, q⟩, text⟩ = true ↔ p.openPos < q ∧ q ≤ p.closePos)) := by
  constructor
  · intro pairs contentChange
    induction pairs with
    | nil => rfl
    | cons p rest ih =>
      simp only [applyContentChanges, ih, List.filterMap_cons, List.filter_cons,
        applyChangesToPair_single]
      cases hd : dropsPair p contentChange <;> simp [hd]
  · intro p q text hline hoc hbr
    constructor
    · intro hd
      by_contra hcon
      rcases not_and_or.1 hcon with hq | hq
      · -- the insertion point is at or before the opening character
        have hq2 : q ≤ p.openPos := not_lt.1 hq
        have hq3 : q ≤ p.closePos := le_trans hq2 (le_of_lt hoc)
        have hO := getNewPos_of_ge p.openPos ⟨⟨q, q⟩, text⟩ hq2 hq2
        have hC := getNewPos_of_ge p.closePos ⟨⟨q, q⟩, text⟩ hq3 hq3
        unfold dropsPair at hd
        rw [hO, hC] at hd
        unfold getEndPosOfGap getEndPosOfText getEndPos at hd
        simp only [decide_eq_true_eq] at hd
        have hlo : q.line ≤ p.openPos.line := by
          rcases (Position.le_def _ _).1 hq2 with h | ⟨h, -⟩ <;> omega
        have hlc : q.line ≤ p.closePos.line := by
          rcases (Position.le_def _ _).1 hq3 with h | ⟨h, -⟩ <;> omega
        exact hd (by omega)
      · -- the insertion point is strictly after the closing character
        have hq2 : p.closePos < q := not_le.1 hq
        have hO := getNewPos_of_lt p.openPos ⟨⟨q, q⟩, text⟩ (lt_trans hoc hq2)
        have hC := getNewPos_of_lt p.closePos ⟨⟨q, q⟩, text⟩ hq2
        unfold dropsPair at hd
        rw [hO, hC] at hd
        simp only [decide_eq_true_eq] at hd
        exact hd hline
    · rintro ⟨h1, h2⟩
      have hO := getNewPos_of_lt p.openPos ⟨⟨q, q⟩, text⟩ h1
      have hC := getNewPos_of_ge p.closePos ⟨⟨q, q⟩, text⟩ h2 h2
      unfold dropsPair
      rw [hO, hC]
      unfold getEndPosOfGap getEndPosOfText getEndPos
      simp only [decide_eq_true_eq]
      have hdl := length_splitText text
      have hlc : q.line ≤ p.closePos.line := by
        rcases (Position.le_def _ _).1 h2 with h | ⟨h, -⟩ <;> omega
      omega

/-- C2 witness: inserting a line break at (0,2), strictly inside the pair
[(0,0),(0,5)], drops that pair; inserting the same text at (0,7), past its
closing character, does not. -/
theorem applyContentChanges_drop_characterization_witness :
    dropsPair ⟨⟨0, 0⟩, ⟨0, 5⟩⟩ ⟨⟨⟨0, 2⟩, ⟨0, 2⟩⟩, ['\n']⟩ = true ∧
      dropsPair ⟨⟨0, 0⟩, ⟨0, 5⟩⟩ ⟨⟨⟨0, 7⟩, ⟨0, 7⟩⟩, ['\n']⟩ = false := by
  constructor
  · exact (applyContentChanges_drop_characterization.2 ⟨⟨0, 0⟩, ⟨0, 5⟩⟩ ⟨0, 2⟩ ['\n']
      (by decide) (by decide) (by decide)).mpr (by decide)
  · have h := applyContentChanges_drop_characterization.2 ⟨⟨0, 0⟩, ⟨0, 5⟩⟩ ⟨0, 7⟩ ['\n']
      (by decide) (by decide) (by decide)
    cases hb : dropsPair ⟨⟨0, 0⟩, ⟨0, 5⟩⟩ ⟨⟨⟨0, 7⟩, ⟨0, 7⟩⟩, ['\n']⟩
    · rfl
    · exact absurd (h.mp hb) (by decide)

/-- C3 counterexample: a batch of two content changes whose first change is a
2-character trigger insertion does create a new pair, contrary to the claim
that no new pair is created for a batch that is not an exact single-change
trigger insertion. -/
theorem getNewPair_ignores_batch_shape :
    (updateGivenContentChanges ⟨[], []⟩
        [⟨⟨⟨0, 0⟩, ⟨0, 0⟩⟩, ['(', ')']⟩, ⟨⟨⟨5, 0⟩, ⟨5, 1⟩⟩, []⟩]
        ⟨0, 1⟩ ⟨[['(', ')']]⟩).data = [⟨⟨0, 0⟩, ⟨0, 1⟩⟩] := by decide

/-- C3 (amended): a content-change update creates a new pair iff the first
content change of the batch has an empty range and a 2-code-unit inserted
text equal to some configured trigger pair — the batch length is never
examined — and the new pair then spans `[insertionPos, insertionPos + 1)`;
the update appends exactly that pair (and nothing else) after the updated
and rescued pairs. -/
theorem getNewPair_first_change_only (settings : Settings) (cc : ContentChange)
    (rest : List ContentChange) (s : PairsState) (cursorPos : Position) :
    (∀ q : Pair,
      getNewPair (cc :: rest) settings = some q ↔
        (cc.text.length = 2 ∧ cc.range.isEmpty = true ∧ cc.text ∈ settings.languageRule ∧
          q = ⟨cc.range.start, ⟨cc.range.start.line, cc.range.start.character + 1⟩⟩)) ∧
    (updateGivenContentChanges s (cc :: rest) cursorPos settings).data =
      survivorsAfter s (cc :: rest) cursorPos ++
        (getNewPair (cc :: rest) settings).toList := by
  refine ⟨fun q => ?_, updateGivenContentChanges_data s (cc :: rest) cursorPos settings⟩
  show (if cc.text.length = 2 ∧ cc.range.isEmpty = true ∧
      (settings.languageRule.any fun rule => cc.text = rule) = true then
    some (⟨cc.range.start, cc.range.start.translateChar 1⟩ : Pair) else none) = some q ↔ _
  split_ifs with h
  · rcases h with ⟨h1, h2, h3⟩
    simp only [Option.some.injEq]
    constructor
    · rintro rfl
      obtain ⟨r, hr, he⟩ := List.any_eq_true.1 h3
      refine ⟨h1, h2, ?_, rfl⟩
      exact (of_decide_eq_true he) ▸ hr
    · rintro ⟨-, -, -, rfl⟩
      rfl
  · constructor
    · intro hcon
      cases hcon
    · rintro ⟨h1, h2, h3, rfl⟩
      refine absurd ⟨h1, h2, ?_⟩ h
      rw [List.any_eq_true]
      exact ⟨cc.text, h3, by simp⟩

/-- C4: after a cursor-change update followed immediately by a content-change
update, the rescue buffer is empty either way; a pair the cursor update
removed is reinstated into the cluster whenever the content changes shift it
so that the then-current cursor again encloses it; and (for a cluster that
held just that pair) it is gone for good when the shifted pair no longer
encloses the cursor or an endpoint was deleted. -/
theorem rescue_buffer_one_shot (s : PairsState) (c1 : Position)
    (contentChanges : List ContentChange) (c2 : Position) (settings : Settings) :
    ((updateGivenContentChanges (updateGivenCursorChanges s c1) contentChanges c2
        settings).recentlyRemovedDueToCursorMove = []) ∧
      (∀ p ∈ s.data, p.enclosesPos c1 = false →
        ∀ p', surviveChanges contentChanges p = some p' → p'.enclosesPos c2 = true →
          p' ∈ (updateGivenContentChanges (updateGivenCursorChanges s c1) contentChanges c2
            settings).data) ∧
      (∀ p, s.data = [p] → p.enclosesPos c1 = false →
        (∀ p', surviveChanges contentChanges p = some p' → p'.enclosesPos c2 = false) →
        getNewPair contentChanges settings = none →
        (updateGivenContentChanges (updateGivenCursorChanges s c1) contentChanges c2
          settings).data = []) := by
  refine ⟨updateGivenContentChanges_buffer _ _ _ _, ?_, ?_⟩
  · intro p hmem henc p' hsurv henc2
    rw [updateGivenContentChanges_data]
    apply List.mem_append_left
    unfold survivorsAfter
    apply List.mem_append_right
    apply List.mem_filter.2
    refine ⟨?_, henc2⟩
    have hbuf : (updateGivenCursorChanges s c1).recentlyRemovedDueToCursorMove =
        s.data.filter (fun q => !q.enclosesPos c1) := by
      simp [updateGivenCursorChanges, removeEscapedPairs_eq]
    rw [hbuf, applyContentChanges_eq]
    exact List.mem_filterMap.2 ⟨p, List.mem_filter.2 ⟨hmem, by simp [henc]⟩, hsurv⟩
  · intro p hdata henc hfail hnone
    rw [updateGivenContentChanges_data, hnone]
    unfold survivorsAfter
    have hs1 : updateGivenCursorChanges s c1 =
        ⟨s.data.filter (fun q => q.enclosesPos c1),
         s.data.filter (fun q => !q.enclosesPos c1)⟩ := by
      simp [updateGivenCursorChanges, removeEscapedPairs_eq]
    rw [hs1, hdata]
    simp only [List.filter_cons, List.filter_nil, henc]
    simp only [Bool.not_false, if_true, if_false, cond_false, cond_true]
    rw [applyContentChanges_eq, applyContentChanges_eq]
    rcases hq : surviveChanges contentChanges p with - | q
    · simp [hq]
    · have := hfail q hq
      simp [hq, this]

/-- C4 witness: the pair [(0,0),(0,1)] removed by a cursor move to (0,5) is
reinstated (as [(0,3),(0,4)]) by a following insertion of "abc" at (0,0)
when the cursor then sits at (0,4), and is discarded for good when the
cursor instead sits at (0,9). -/
theorem rescue_buffer_one_shot_witness :
    (⟨⟨0, 3⟩, ⟨0, 4⟩⟩ : Pair) ∈
        (updateGivenContentChanges
          (updateGivenCursorChanges ⟨[⟨⟨0, 0⟩, ⟨0, 1⟩⟩], []⟩ ⟨0, 5⟩)
          [⟨⟨⟨0, 0⟩, ⟨0, 0⟩⟩, ['a', 'b', 'c']⟩] ⟨0, 4⟩ ⟨[]⟩).data ∧
      (updateGivenContentChanges
          (updateGivenCursorChanges ⟨[⟨⟨0, 0⟩, ⟨0, 1⟩⟩], []⟩ ⟨0, 5⟩)
          [⟨⟨⟨0, 0⟩, ⟨0, 0⟩⟩, ['a', 'b', 'c']⟩] ⟨0, 9⟩ ⟨[]⟩).data = [] := by
  constructor
  · exact (rescue_buffer_one_shot ⟨[⟨⟨0, 0⟩, ⟨0, 1⟩⟩], []⟩ ⟨0, 5⟩
      [⟨⟨⟨0, 0⟩, ⟨0, 0⟩⟩, ['a', 'b', 'c']⟩] ⟨0, 4⟩ ⟨[]⟩).2.1
      ⟨⟨0, 0⟩, ⟨0, 1⟩⟩ (by decide) (by decide) ⟨⟨0, 3⟩, ⟨0, 4⟩⟩ (by decide) (by decide)
  · refine (rescue_buffer_one_shot ⟨[⟨⟨0, 0⟩, ⟨0, 1⟩⟩], []⟩ ⟨0, 5⟩
      [⟨⟨⟨0, 0⟩, ⟨0, 0⟩⟩, ['a', 'b', 'c']⟩] ⟨0, 9⟩ ⟨[]⟩).2.2
      ⟨⟨0, 0⟩, ⟨0, 1⟩⟩ rfl (by decide) ?_ (by decide)
    intro p' h
    have hs : surviveChanges [⟨⟨⟨0, 0⟩, ⟨0, 0⟩⟩, ['a', 'b', 'c']⟩] ⟨⟨0, 0⟩, ⟨0, 1⟩⟩ =
        some ⟨⟨0, 3⟩, ⟨0, 4⟩⟩ := by decide
    rw [hs] at h
    cases h
    decide

/-! ### Monotonicity of the Position-Delta Algorithm and the nesting invariant -/

theorem getNewPos_branch (pos : Position) (contentChange : ContentChange) (res : Position)
    (h : getNewPos pos contentChange = some res) :
    (pos < contentChange.range.start ∧ res = pos) ∨
      (contentChange.range.start ≤ pos ∧ contentChange.range.stop ≤ pos ∧
        res = getEndPosOfGap (getEndPosOfText contentChange.range.start contentChange.text)
          ⟨contentChange.range.stop, pos⟩) := by
  by_cases h1 : contentChange.range.start ≤ pos ∧ pos < contentChange.range.stop
  · unfold getNewPos at h
    rw [if_pos h1] at h
    cases h
  · by_cases h2 : pos < contentChange.range.start
    · refine Or.inl ⟨h2, ?_⟩
      rw [getNewPos_of_lt pos contentChange h2] at h
      exact (Option.some.inj h).symm
    · have hs : contentChange.range.start ≤ pos := not_lt.1 h2
      have he : contentChange.range.stop ≤ pos := not_lt.1 fun hlt => h1 ⟨hs, hlt⟩
      refine Or.inr ⟨hs, he, ?_⟩
      rw [getNewPos_of_ge pos contentChange hs he] at h
      exact (Option.some.inj h).symm

/-- Positions that survive a content change keep their strict order. -/
theorem getNewPos_strictMono (contentChange : ContentChange) (a b a' b' : Position)
    (hab : a < b) (ha : getNewPos a contentChange = some a')
    (hb : getNewPos b contentChange = some b') : a' < b' := by
  rcases getNewPos_branch a contentChange a' ha with ⟨hA, rfl⟩ | ⟨hA1, hA2, rfl⟩
  · rcases getNewPos_branch b contentChange b' hb with ⟨hB, rfl⟩ | ⟨hB1, hB2, rfl⟩
    · exact hab
    · unfold getEndPosOfGap getEndPosOfText getEndPos
      simp only [Position.lt_def, Position.le_def] at *
      split_ifs <;> omega
  · rcases getNewPos_branch b contentChange b' hb with ⟨hB, rfl⟩ | ⟨hB1, hB2, rfl⟩
    · simp only [Position.lt_def, Position.le_def] at *
      omega
    · unfold getEndPosOfGap getEndPosOfText getEndPos
      simp only [Position.lt_def, Position.le_def] at *
      split_ifs <;> omega

theorem surviveChanges_nil (p : Pair) : surviveChanges [] p = some p := rfl

theorem surviveChanges_def (contentChanges : List ContentChange) (p : Pair) :
    surviveChanges contentChanges p =
      match applyChangesToPair p contentChanges with
      | (q, true) => some q
      | (_, false) => none := rfl

theorem applyChangesToPair_cons (p : Pair) (contentChange : ContentChange)
    (rest : List ContentChange) :
    applyChangesToPair p (contentChange :: rest) =
      match getNewPos p.openPos contentChange, getNewPos p.closePos contentChange with
      | some newOpen, some newClose =>
        if newOpen.line ≠ newClose.line then (p, false)
        else applyChangesToPair ⟨newOpen, newClose⟩ rest
      | _, _ => (p, false) := rfl

theorem surviveChanges_cons (contentChange : ContentChange) (rest : List ContentChange)
    (p p' : Pair) :
    surviveChanges (contentChange :: rest) p = some p' ↔
      ∃ o c, getNewPos p.openPos contentChange = some o ∧
        getNewPos p.closePos contentChange = some c ∧ o.line = c.line ∧
        surviveChanges rest ⟨o, c⟩ = some p' := by
  rcases hO : getNewPos p.openPos contentChange with - | o <;>
    rcases hC : getNewPos p.closePos contentChange with - | c <;>
      simp only [surviveChanges_def, applyChangesToPair_cons, hO, hC]
  · simp
  · simp
  · simp
  · by_cases hl : o.line = c.line <;> simp [hl]

/-- Pairs that survive a batch of content changes keep their strict proper
nesting. -/
theorem surviveChanges_nests (contentChanges : List ContentChange) :
    ∀ (p q p' q' : Pair), properlyNests p q →
      surviveChanges contentChanges p = some p' →
      surviveChanges contentChanges q = some q' → properlyNests p' q' := by
  induction contentChanges with
  | nil =>
    intro p q p' q' h hp hq
    rw [surviveChanges_nil] at hp hq
    cases hp
    cases hq
    exact h
  | cons contentChange rest ih =>
    intro p q p' q' h hp hq
    obtain ⟨o1, c1, hO1, hC1, hl1, hr1⟩ := (surviveChanges_cons _ _ _ _).1 hp
    obtain ⟨o2, c2, hO2, hC2, hl2, hr2⟩ := (surviveChanges_cons _ _ _ _).1 hq
    refine ih ⟨o1, c1⟩ ⟨o2, c2⟩ p' q' ⟨?_, ?_⟩ hr1 hr2
    · exact getNewPos_strictMono contentChange p.openPos q.openPos o1 o2 h.1 hO1 hO2
    · exact getNewPos_strictMono contentChange q.closePos p.closePos c2 c1 h.2 hC2 hC1

instance : IsTrans Pair properlyNests :=
  ⟨fun _ _ _ hab hbc => ⟨lt_trans hab.1 hbc.1, lt_trans hbc.2 hab.2⟩⟩

/-- An enclosing position of an inner pair is also enclosed by any pair it
properly nests inside. -/
theorem enclosesPos_of_nests {p q : Pair} (h : properlyNests p q) {pos : Position}
    (hq : q.enclosesPos pos = true) : p.enclosesPos pos = true := by
  unfold Pair.enclosesPos at *
  simp only [decide_eq_true_eq] at *
  exact ⟨le_of_lt (lt_of_lt_of_le h.1 hq.1), le_trans hq.2 (le_of_lt h.2)⟩

/-- On a properly nested list, the pairs enclosing a position form a prefix,
so filtering by enclosure and by non-enclosure splits the list in order. -/
theorem filter_enc_split (l : List Pair) (pos : Position)
    (hl : l.Pairwise properlyNests) :
    l.filter (fun p => p.enclosesPos pos) ++ l.filter (fun p => !p.enclosesPos pos) = l := by
  induction l with
  | nil => rfl
  | cons p rest ih =>
    have hrel := (List.pairwise_cons.1 hl).1
    have hrest := (List.pairwise_cons.1 hl).2
    cases hp : p.enclosesPos pos
    · have hall : ∀ q ∈ rest, q.enclosesPos pos = false := by
        intro q hq
        cases hqe : q.enclosesPos pos
        · rfl
        · rw [enclosesPos_of_nests (hrel q hq) hqe] at hp
          cases hp
      have h1 : (p :: rest).filter (fun q => q.enclosesPos pos) = [] := by
        rw [List.filter_eq_nil_iff]
        intro q hq
        rcases List.mem_cons.1 hq with rfl | hq2
        · simp [hp]
        · simp [hall q hq2]
      have h2 : (p :: rest).filter (fun q => !q.enclosesPos pos) = p :: rest := by
        rw [List.filter_eq_self]
        intro q hq
        rcases List.mem_cons.1 hq with rfl | hq2
        · simp [hp]
        · simp [hall q hq2]
      rw [h1, h2, List.nil_append]
    · rw [List.filter_cons_of_pos (by simp [hp]), List.filter_cons_of_neg (by simp [hp]),
        List.cons_append, ih hrest]

/-- The guarded reachable states keep the tracked pairs and the rescue buffer
jointly properly nested. -/
theorem reachableGuarded_invariant (settings : Settings) (s : PairsState)
    (h : ReachableGuarded settings s) :
    (s.data ++ s.recentlyRemovedDueToCursorMove).Pairwise properlyNests := by
  induction h with
  | init => simp
  | clearStep s hs ih => simp [clear]
  | cursor s cursorPos hs ih =>
    have hdata : s.data.Pairwise properlyNests := (List.pairwise_append.1 ih).1
    simp only [updateGivenCursorChanges, removeEscapedPairs_eq]
    rw [filter_enc_split s.data cursorPos hdata]
    exact hdata
  | content s contentChanges cursorPos hs hguard ih =>
    rw [updateGivenContentChanges_data, updateGivenContentChanges_buffer, List.append_nil]
    have hmap : ((s.data ++ s.recentlyRemovedDueToCursorMove).filterMap
        (surviveChanges contentChanges)).Pairwise properlyNests := by
      refine List.Pairwise.filterMap (surviveChanges contentChanges) ?_ ih
      intro a a' hr b hb b' hb'
      exact surviveChanges_nests contentChanges a a' b b' hr
        (Option.mem_def.1 hb) (Option.mem_def.1 hb')
    rw [List.filterMap_append] at hmap
    have hsurv : (survivorsAfter s contentChanges cursorPos).Pairwise properlyNests := by
      unfold survivorsAfter
      rw [applyContentChanges_eq, applyContentChanges_eq]
      rcases List.pairwise_append.1 hmap with ⟨h1, h2, hcross⟩
      refine List.pairwise_append.2 ⟨h1, h2.filter _, ?_⟩
      intro a ha b hb
      exact hcross a ha b (List.mem_of_mem_filter hb)
    rcases hnp : getNewPair contentChanges settings with - | np
    · simpa using hsurv
    · simp only [Option.toList_some]
      refine List.pairwise_append.2 ⟨hsurv, List.pairwise_singleton _ _, ?_⟩
      intro a ha b hb
      rcases List.mem_singleton.1 hb with rfl
      exact hguard b hnp a ha

/-- C5 counterexample: two successive content-change updates, each inserting
the trigger pair "()" (the second insertion past the pair created by the
first), reach a state whose pair list is not properly nested, contrary to
the claim that every state reachable by any sequence of updates is. -/
theorem nesting_invariant_fails_unguarded :
    Reachable ⟨[['(', ')']]⟩
        (updateGivenContentChanges
          (updateGivenContentChanges ⟨[], []⟩ [⟨⟨⟨0, 0⟩, ⟨0, 0⟩⟩, ['(', ')']⟩] ⟨0, 1⟩
            ⟨[['(', ')']]⟩)
          [⟨⟨⟨0, 5⟩, ⟨0, 5⟩⟩, ['(', ')']⟩] ⟨0, 6⟩ ⟨[['(', ')']]⟩) ∧
      ¬ properlyNested
          (updateGivenContentChanges
            (updateGivenContentChanges ⟨[], []⟩ [⟨⟨⟨0, 0⟩, ⟨0, 0⟩⟩, ['(', ')']⟩] ⟨0, 1⟩
              ⟨[['(', ')']]⟩)
            [⟨⟨⟨0, 5⟩, ⟨0, 5⟩⟩, ['(', ')']⟩] ⟨0, 6⟩ ⟨[['(', ')']]⟩).data := by
  constructor
  · exact Reachable.content _ _ _ (Reachable.content _ _ _ Reachable.init)
  · intro hcon
    have hdata : (updateGivenContentChanges
        (updateGivenContentChanges ⟨[], []⟩ [⟨⟨⟨0, 0⟩, ⟨0, 0⟩⟩, ['(', ')']⟩] ⟨0, 1⟩
          ⟨[['(', ')']]⟩)
        [⟨⟨⟨0, 5⟩, ⟨0, 5⟩⟩, ['(', ')']⟩] ⟨0, 6⟩ ⟨[['(', ')']]⟩).data =
        [⟨⟨0, 0⟩, ⟨0, 1⟩⟩, ⟨⟨0, 5⟩, ⟨0, 6⟩⟩] := by decide
    unfold properlyNested at hcon
    rw [hdata] at hcon
    exact absurd (List.chain'_cons.1 hcon).1.2 (by decide)

/-- C5 (amended): in every state reachable by content-change updates,
cursor-change updates, and clears, the pair list of the cluster is strictly
properly nested — including after rescued pairs are reinstated and after a
new pair is appended — provided that whenever a content-change update
creates a new pair, every pair surviving that update's positional shift
strictly contains the new pair; without that proviso an insertion of a
trigger pair outside an existing tracked pair breaks the nesting. -/
theorem nesting_invariant_guarded (settings : Settings) (s : PairsState)
    (h : ReachableGuarded settings s) : properlyNested s.data := by
  have hinv := reachableGuarded_invariant settings s h
  exact List.chain'_iff_pairwise.2 (List.pairwise_append.1 hinv).1

/-- C5 witness: the guarded reachability applied to the single content-change
update that creates the pair for a typed "()" in an empty document. -/
theorem nesting_invariant_guarded_witness :
    properlyNested
      (updateGivenContentChanges ⟨[], []⟩ [⟨⟨⟨0, 0⟩, ⟨0, 0⟩⟩, ['(', ')']⟩] ⟨0, 1⟩
        ⟨[['(', ')']]⟩).data := by
  refine nesting_invariant_guarded ⟨[['(', ')']]⟩ _
    (ReachableGuarded.content _ _ _ ReachableGuarded.init ?_)
  intro np hnp p hp
  simp [survivorsAfter, applyContentChanges] at hp

end Leaper
